import Mathlib

set_option maxHeartbeats 1000000

/-!
Verification of the extract-and-synchronize core of the affiliate
product scraper.  The sync engine is embedded from
`src/google_sheets.py` (`GoogleSheetsManager`), the fetcher, link
discovery, field extraction and price normalization from
`src/platforms/mihanstore.py` (`MihanstoreScraper`).
-/

namespace AffSync

/-- Empty string constant (Python default for missing text fields). -/
def blankS : String := ""

/-- Default value of the `status` column (`product.get('status', 'Active')`). -/
def activeS : String := "Active"

/-- Cell value stored in a sheet row.  `_product_to_row` writes strings for
every column except `Price (Toman)`, which is written as a raw integer. -/
inductive Cell where
  | s (v : String)
  | n (v : Nat)
deriving DecidableEq, Repr

/-- Rendering of a cell value the way a Python f-string renders it
(used by `get_existing_products` when it builds `platform_productid` keys). -/
def cellStr : Cell → String
  | .s v => v
  | .n v => toString v

/-- A scraped product record.  Fields mirror the dict built by
`MihanstoreScraper.scrape_product`; `category` and `status` are absent from
that dict, so they are `Option`s and `_product_to_row` applies the
`.get(..., default)` defaults. -/
structure Product where
  product_id : String
  platform : String
  name : String
  price : Nat
  price_formatted : String
  image : String
  product_url : String
  category : Option String
  status : Option String
  scraped_at : String
deriving DecidableEq, Repr

/-- Key of a product in the sync diff:
`f"{product.get('platform','')}_{product.get('product_id','')}"`. -/
def pkey (p : Product) : String := p.platform ++ "_" ++ p.product_id

/-- `GoogleSheetsManager._product_to_row`: the 11-column row payload.
The `Last Updated` timestamp (`datetime.now()`) is passed in as `now`. -/
def product_to_row (now : String) (p : Product) : List Cell :=
  [Cell.s p.product_id, Cell.s p.platform, Cell.s p.name, Cell.n p.price,
   Cell.s p.price_formatted, Cell.s p.image, Cell.s p.product_url,
   Cell.s (p.category.getD blankS), Cell.s (p.status.getD activeS), Cell.s now,
   Cell.s p.scraped_at]

/-- Data rows of the sheet below the header: entry `m` of the list is sheet
row `m + 2`. -/
abbrev Table := List (List Cell)

/-- The `existing` dictionary of `get_existing_products`: key to
`[row_number, row]`.  It is observed only through key lookup. -/
abbrev KeyMap := List (String × Nat × List Cell)

/-- Row key built by `get_existing_products`:
`f"{row[1]}_{row[0]}" if len(row) > 1 else row[0]`. -/
def rowKeyFn (r : List Cell) : String :=
  if 1 < r.length then cellStr (r.getD 1 (Cell.s blankS)) ++ "_" ++ cellStr (r.getD 0 (Cell.s blankS))
  else cellStr (r.getD 0 (Cell.s blankS))

/-- The dictionary built by `get_existing_products` from the data rows,
`i` being the sheet row number of the first row (2 on the outer call).
Python dict assignment lets a later row overwrite an earlier one with the
same key, so entries of later rows are placed in front of the
association list. -/
def get_existing_from (i : Nat) : Table → KeyMap
  | [] => []
  | r :: rs => get_existing_from (i + 1) rs ++ (if 0 < r.length then [(rowKeyFn r, i, r)] else [])

/-- The `{'added','updated','unchanged'}` stats dict returned by
`upload_products`. -/
structure Stats where
  added : Nat
  updated : Nat
  unchanged : Nat
deriving DecidableEq, Repr

/-- The per-product diff loop of `upload_products`: classifies every product
against `existing` and accumulates `stats`, `rows_to_add` and
`rows_to_update` (in input order). -/
def syncList (existing : KeyMap) (now : String) :
    List Product → Stats × List (List Cell) × List (Nat × List Cell)
  | [] => (⟨0, 0, 0⟩, [], [])
  | p :: ps =>
    let rest := syncList existing now ps
    let row := product_to_row now p
    match List.lookup (pkey p) existing with
    | some (row_number, old_row) =>
      if 3 < old_row.length ∧ old_row.getD 3 (Cell.s blankS) ≠ row.getD 3 (Cell.s blankS) then
        (⟨rest.1.added, rest.1.updated + 1, rest.1.unchanged⟩, rest.2.1, (row_number, row) :: rest.2.2)
      else
        (⟨rest.1.added, rest.1.updated, rest.1.unchanged + 1⟩, rest.2.1, rest.2.2)
    | none => (⟨rest.1.added + 1, rest.1.updated, rest.1.unchanged⟩, row :: rest.2.1, rest.2.2)

/-- Failure kind of a remote call: the source catches `HttpError` and lets
every other exception propagate. -/
inductive WErr where
  | httpError
  | otherError
deriving DecidableEq, Repr

/-- Fault injection for the remote sheet calls of one run: `none` means the
call succeeds. -/
structure Env where
  clearErr : Option WErr
  readErr : Option WErr
  appendErr : Option WErr
  updateErr : Option WErr
deriving DecidableEq, Repr

/-- Environment in which every remote call succeeds. -/
def env_ok : Env := ⟨none, none, none, none⟩

/-- Remote requests issued by a run (observable I/O trace). -/
inductive Req where
  | read | append | update | clear
deriving DecidableEq, Repr

/-- Effect of the batchUpdate payload on the data rows: each
`{'range': f"A{row_number}", 'values': [row]}` overwrites sheet row
`row_number`, that is entry `row_number - 2` of the data rows. -/
def applyUpdates (t : Table) (upds : List (Nat × List Cell)) : Table :=
  upds.foldl (fun acc e => acc.set (e.1 - 2) e.2) t

/-- `GoogleSheetsManager._clear_data`: clears all data rows; an `HttpError`
is caught and logged (the data stays), anything else propagates. -/
def clear_data (env : Env) (t : Table) : Except Unit Table :=
  match env.clearErr with
  | none => .ok []
  | some .httpError => .ok t
  | some .otherError => .error ()

/-- `GoogleSheetsManager.get_existing_products`: reads all data rows and
builds the key dictionary; an `HttpError` is caught and yields `{}`,
anything else propagates. -/
def get_existing_products (env : Env) (t : Table) : Except Unit KeyMap :=
  match env.readErr with
  | none => .ok (get_existing_from 2 t)
  | some .httpError => .ok []
  | some .otherError => .error ()

/-- `GoogleSheetsManager._batch_append`: appends the new rows after the last
data row; an `HttpError` is caught and logged, anything else propagates. -/
def batch_append (env : Env) (t : Table) (rows : List (List Cell)) : Except Unit Table :=
  match env.appendErr with
  | none => .ok (t ++ rows)
  | some .httpError => .ok t
  | some .otherError => .error ()

/-- `GoogleSheetsManager._batch_update`: overwrites the listed rows in
place; an `HttpError` is caught and logged, anything else propagates. -/
def batch_update (env : Env) (t : Table) (upds : List (Nat × List Cell)) : Except Unit Table :=
  match env.updateErr with
  | none => .ok (applyUpdates t upds)
  | some .httpError => .ok t
  | some .otherError => .error ()

/-- Upload mode of `upload_products`. -/
inductive Mode where
  | update | replace | append
deriving DecidableEq, Repr

/-- State of the manager that `upload_products` reads: the configured
spreadsheet id and the current data rows of the sheet. -/
structure Sheet where
  spreadsheet_id : Option String
  rows : Table
deriving DecidableEq, Repr

/-- `GoogleSheetsManager.upload_products`: returns the stats dict together
with the resulting data rows and the trace of remote requests issued. -/
def upload_products (env : Env) (sheet : Sheet) (products : List Product) (mode : Mode)
    (now : String) : Except Unit (Stats × Table × List Req) :=
  match sheet.spreadsheet_id with
  | none => .ok (⟨0, 0, 0⟩, sheet.rows, [])
  | some _ =>
    let step1 : Except Unit (Mode × Table × List Req) :=
      match mode with
      | .replace =>
        match clear_data env sheet.rows with
        | .ok t0 => .ok (.append, t0, [Req.clear])
        | .error e => .error e
      | m => .ok (m, sheet.rows, [])
    match step1 with
    | .error e => .error e
    | .ok (mode2, t0, log0) =>
      let step2 : Except Unit (KeyMap × List Req) :=
        match mode2 with
        | .update =>
          match get_existing_products env t0 with
          | .ok m => .ok (m, [Req.read])
          | .error e => .error e
        | _ => .ok ([], [])
      match step2 with
      | .error e => .error e
      | .ok (existing, log1) =>
        let r := syncList existing now products
        let step3 : Except Unit Table :=
          if r.2.1.isEmpty then .ok t0 else batch_append env t0 r.2.1
        match step3 with
        | .error e => .error e
        | .ok t1 =>
          let step4 : Except Unit Table :=
            if r.2.2.isEmpty then .ok t1 else batch_update env t1 r.2.2
          match step4 with
          | .error e => .error e
          | .ok t2 =>
            .ok (r.1, t2, log0 ++ log1 ++
              (if r.2.1.isEmpty then [] else [Req.append]) ++
              (if r.2.2.isEmpty then [] else [Req.update]))

/-- Key of a data row as seen by the sync diff, `none` for an empty row
(which `get_existing_products` skips). -/
def keyOpt (r : List Cell) : Option String :=
  if 0 < r.length then some (rowKeyFn r) else none

/-- Keys of the nonempty data rows of the table, in row order. -/
def keysOf (t : Table) : List String := t.filterMap keyOpt

/-! Unfolding lemmas for the diff loop. -/

theorem syncList_cons (m : KeyMap) (now : String) (p : Product) (ps : List Product) :
    syncList m now (p :: ps) =
      (match List.lookup (pkey p) m with
        | some (rn, old) =>
          if 3 < old.length ∧ old.getD 3 (Cell.s blankS) ≠ (product_to_row now p).getD 3 (Cell.s blankS) then
            (⟨(syncList m now ps).1.added, (syncList m now ps).1.updated + 1, (syncList m now ps).1.unchanged⟩,
              (syncList m now ps).2.1, (rn, product_to_row now p) :: (syncList m now ps).2.2)
          else
            (⟨(syncList m now ps).1.added, (syncList m now ps).1.updated, (syncList m now ps).1.unchanged + 1⟩,
              (syncList m now ps).2.1, (syncList m now ps).2.2)
        | none =>
          (⟨(syncList m now ps).1.added + 1, (syncList m now ps).1.updated, (syncList m now ps).1.unchanged⟩,
            product_to_row now p :: (syncList m now ps).2.1, (syncList m now ps).2.2)) := rfl

theorem syncList_cons_none (m : KeyMap) (now : String) (p : Product) (ps : List Product)
    (h : List.lookup (pkey p) m = none) :
    syncList m now (p :: ps) =
      (⟨(syncList m now ps).1.added + 1, (syncList m now ps).1.updated, (syncList m now ps).1.unchanged⟩,
        product_to_row now p :: (syncList m now ps).2.1, (syncList m now ps).2.2) := by
  rw [syncList_cons, h]

theorem syncList_cons_upd (m : KeyMap) (now : String) (p : Product) (ps : List Product)
    (rn : Nat) (old : List Cell) (h : List.lookup (pkey p) m = some (rn, old))
    (hc : 3 < old.length ∧ old.getD 3 (Cell.s blankS) ≠ Cell.n p.price) :
    syncList m now (p :: ps) =
      (⟨(syncList m now ps).1.added, (syncList m now ps).1.updated + 1, (syncList m now ps).1.unchanged⟩,
        (syncList m now ps).2.1, (rn, product_to_row now p) :: (syncList m now ps).2.2) := by
  rw [syncList_cons, h]
  exact if_pos hc

theorem syncList_cons_unch (m : KeyMap) (now : String) (p : Product) (ps : List Product)
    (rn : Nat) (old : List Cell) (h : List.lookup (pkey p) m = some (rn, old))
    (hc : ¬ (3 < old.length ∧ old.getD 3 (Cell.s blankS) ≠ Cell.n p.price)) :
    syncList m now (p :: ps) =
      (⟨(syncList m now ps).1.added, (syncList m now ps).1.updated, (syncList m now ps).1.unchanged + 1⟩,
        (syncList m now ps).2.1, (syncList m now ps).2.2) := by
  rw [syncList_cons, h]
  exact if_neg hc

/-- Every product of the input list is counted in exactly one of the three
stats fields. -/
theorem syncList_stats_sum (m : KeyMap) (now : String) (ps : List Product) :
    (syncList m now ps).1.added + (syncList m now ps).1.updated + (syncList m now ps).1.unchanged
      = ps.length := by
  induction ps with
  | nil => rfl
  | cons p ps ih =>
    rcases hlk : List.lookup (pkey p) m with _ | ⟨rn, old⟩
    · rw [syncList_cons_none m now p ps hlk]
      simpa using by omega
    · by_cases hc : 3 < old.length ∧ old.getD 3 (Cell.s blankS) ≠ Cell.n p.price
      · rw [syncList_cons_upd m now p ps rn old hlk hc]
        simpa using by omega
      · rw [syncList_cons_unch m now p ps rn old hlk hc]
        simpa using by omega

/-- Whatever the environment and mode, a run that returns stats computed them
by the diff loop against some key map. -/
theorem upload_ok_stats (env : Env) (sheet : Sheet) (ps : List Product) (mode : Mode)
    (now : String) (s : Stats) (t : Table) (log : List Req) (sid : String)
    (hid : sheet.spreadsheet_id = some sid)
    (hok : upload_products env sheet ps mode now = .ok (s, t, log)) :
    ∃ ex, s = (syncList ex now ps).1 := by
  obtain ⟨ce, re, ae, ue⟩ := env
  obtain ⟨id?, rows⟩ := sheet
  simp only at hid
  subst hid
  rcases ce with _ | (_ | _) <;> rcases re with _ | (_ | _) <;>
    rcases ae with _ | (_ | _) <;> rcases ue with _ | (_ | _) <;> cases mode <;>
    simp only [upload_products, clear_data, get_existing_products, batch_append,
      batch_update] at hok <;>
    (try split at hok) <;> (try split at hok) <;>
    first
      | (simp only [Except.ok.injEq, Prod.mk.injEq] at hok; exact ⟨_, hok.1.symm⟩)
      | exact absurd hok (by simp)

/-! Shared concrete inputs used by witnesses and counterexamples. -/

/-- A concrete scraped product with price 100000. -/
def prodA : Product :=
  ⟨"4521", "mihanstore", "Test Product", 100000, "100,000 تومان", "",
   "https://dot-shop.mihanstore.net/product.php?id=4521", none, none, "S0"⟩

/-- The same product scraped with price 120000. -/
def prodB : Product := { prodA with price := 120000 }

/-- Sheet row storing `prodA` (stored price cell 100000). -/
def rowA : List Cell := product_to_row "T0" prodA

/-- Key map of a sheet whose row 2 is `rowA`. -/
def mapA : KeyMap := [(pkey prodA, 2, rowA)]

/-! Claim theorems C1, C2, C10. -/

/-- C1: in update mode, for a scraped product whose key is present in the
existing mapping (with a stored row long enough to carry a price field), the
product is counted `updated` with a single-row overwrite scheduled at the
stored row's index exactly when the stored price cell differs from the
freshly scraped price, and counted `unchanged` with no write scheduled
exactly when they are identical. -/
theorem C1_update_price_comparison (m : KeyMap) (now : String) (p : Product) (ps : List Product)
    (rn : Nat) (old : List Cell)
    (hlk : List.lookup (pkey p) m = some (rn, old)) (hlen : 3 < old.length) :
    (old.getD 3 (Cell.s blankS) ≠ Cell.n p.price →
      syncList m now (p :: ps) =
        (⟨(syncList m now ps).1.added, (syncList m now ps).1.updated + 1, (syncList m now ps).1.unchanged⟩,
          (syncList m now ps).2.1, (rn, product_to_row now p) :: (syncList m now ps).2.2)) ∧
    (old.getD 3 (Cell.s blankS) = Cell.n p.price →
      syncList m now (p :: ps) =
        (⟨(syncList m now ps).1.added, (syncList m now ps).1.updated, (syncList m now ps).1.unchanged + 1⟩,
          (syncList m now ps).2.1, (syncList m now ps).2.2)) := by
  constructor
  · intro hne
    exact syncList_cons_upd m now p ps rn old hlk ⟨hlen, hne⟩
  · intro heq
    refine syncList_cons_unch m now p ps rn old hlk ?_
    rintro ⟨-, hne⟩
    exact hne heq

/-- Witness for C1: stored price 100000 with scraped price 120000 is
classified `updated` with an overwrite of row 2 scheduled, and with scraped
price 100000 it is classified `unchanged` with no write scheduled. -/
theorem C1_update_price_comparison_witness :
    syncList mapA "T1" [prodB] = (⟨0, 1, 0⟩, [], [(2, product_to_row "T1" prodB)]) ∧
    syncList mapA "T1" [prodA] = (⟨0, 0, 1⟩, [], []) := by
  constructor
  · exact (C1_update_price_comparison mapA "T1" prodB [] 2 rowA rfl (by decide)).1 (by decide)
  · exact (C1_update_price_comparison mapA "T1" prodA [] 2 rowA rfl (by decide)).2 (by decide)

/-- C2: for every environment, product list and mode, a synchronization run
on a configured sheet that returns a stats dict satisfies
`added + updated + unchanged = number of scraped products`. -/
theorem C2_stats_partition (env : Env) (sheet : Sheet) (ps : List Product) (mode : Mode)
    (now : String) (s : Stats) (t : Table) (log : List Req) (sid : String)
    (hid : sheet.spreadsheet_id = some sid)
    (hok : upload_products env sheet ps mode now = .ok (s, t, log)) :
    s.added + s.updated + s.unchanged = ps.length := by
  obtain ⟨ex, rfl⟩ := upload_ok_stats env sheet ps mode now s t log sid hid hok
  exact syncList_stats_sum ex now ps

/-- Witness for C2: uploading one new product to an empty configured sheet
returns stats `1 + 0 + 0 = 1`. -/
theorem C2_stats_partition_witness :
    (Stats.mk 1 0 0).added + (Stats.mk 1 0 0).updated + (Stats.mk 1 0 0).unchanged
      = [prodA].length :=
  C2_stats_partition env_ok ⟨some (r"sheet1"), []⟩ [prodA] .update (r"T")
    ⟨1, 0, 0⟩ [product_to_row (r"T") prodA] [Req.read, Req.append] (r"sheet1") rfl rfl

/-- C10: a run without a configured spreadsheet id returns zero stats at
once, leaves the table untouched and issues no remote request, whatever the
product list and mode. -/
theorem C10_no_spreadsheet_id (env : Env) (rows : Table) (ps : List Product) (mode : Mode)
    (now : String) :
    upload_products env ⟨none, rows⟩ ps mode now = .ok (⟨0, 0, 0⟩, rows, []) := rfl

/-! Claim C3: error handling of the batched writes. -/

/-- Environment in which both batched write requests fail with an API
`HttpError` (which `_batch_append` and `_batch_update` catch and log). -/
def envHttpWrites : Env := ⟨none, none, some .httpError, some .httpError⟩

/-- Environment in which the batched append fails with a non-`HttpError`
exception (which nothing catches). -/
def envOtherAppend : Env := ⟨none, none, some .otherError, none⟩

/-- Key map that `upload_products` diffs against, per mode. -/
def exOf (mode : Mode) (rows : Table) : KeyMap :=
  match mode with
  | .update => get_existing_from 2 rows
  | _ => []

/-- With `HttpError` write failures, the run still returns the stats computed
by the diff loop. -/
theorem upload_stats_httpw (rows : Table) (sid : String) (ps : List Product) (mode : Mode)
    (now : String) :
    (upload_products envHttpWrites ⟨some sid, rows⟩ ps mode now).map (fun x => x.1) =
      .ok (syncList (exOf mode rows) now ps).1 := by
  cases mode
  case update =>
    by_cases hA : (syncList (get_existing_from 2 rows) now ps).2.1.isEmpty <;>
    by_cases hU : (syncList (get_existing_from 2 rows) now ps).2.2.isEmpty <;>
      simp [upload_products, clear_data, get_existing_products, batch_append, batch_update,
        envHttpWrites, exOf, hA, hU, Except.map]
  case replace =>
    by_cases hA : (syncList [] now ps).2.1.isEmpty <;>
    by_cases hU : (syncList [] now ps).2.2.isEmpty <;>
      simp [upload_products, clear_data, get_existing_products, batch_append, batch_update,
        envHttpWrites, exOf, hA, hU, Except.map]
  case append =>
    by_cases hA : (syncList [] now ps).2.1.isEmpty <;>
    by_cases hU : (syncList [] now ps).2.2.isEmpty <;>
      simp [upload_products, clear_data, get_existing_products, batch_append, batch_update,
        envHttpWrites, exOf, hA, hU, Except.map]

/-- With no failures at all, the run returns the stats computed by the diff
loop. -/
theorem upload_stats_envok (rows : Table) (sid : String) (ps : List Product) (mode : Mode)
    (now : String) :
    (upload_products env_ok ⟨some sid, rows⟩ ps mode now).map (fun x => x.1) =
      .ok (syncList (exOf mode rows) now ps).1 := by
  cases mode
  case update =>
    by_cases hA : (syncList (get_existing_from 2 rows) now ps).2.1.isEmpty <;>
    by_cases hU : (syncList (get_existing_from 2 rows) now ps).2.2.isEmpty <;>
      simp [upload_products, clear_data, get_existing_products, batch_append, batch_update,
        env_ok, exOf, hA, hU, Except.map]
  case replace =>
    by_cases hA : (syncList [] now ps).2.1.isEmpty <;>
    by_cases hU : (syncList [] now ps).2.2.isEmpty <;>
      simp [upload_products, clear_data, get_existing_products, batch_append, batch_update,
        env_ok, exOf, hA, hU, Except.map]
  case append =>
    by_cases hA : (syncList [] now ps).2.1.isEmpty <;>
    by_cases hU : (syncList [] now ps).2.2.isEmpty <;>
      simp [upload_products, clear_data, get_existing_products, batch_append, batch_update,
        env_ok, exOf, hA, hU, Except.map]

/-- C3 counterexample: with the batched append failing as an `HttpError`, the
run of one new product on an empty configured sheet still returns the normal
stats dict `added = 1` (an `.ok` result, not a failed run), while the table
was in fact left empty. -/
theorem C3_write_failure_swallowed_cex :
    upload_products envHttpWrites ⟨some (r"sheet1"), []⟩ [prodA] .update (r"T") =
      .ok (⟨1, 0, 0⟩, [], [Req.read, Req.append]) := rfl

/-- C3 amended: a batched write failure raised as an API `HttpError` is
caught and logged, and the run returns the same stats as a failure-free run
(never a failed run); only a non-`HttpError` exception of a batched write is
surfaced to the caller as a failed run. -/
theorem C3_write_failure_amended (rows : Table) (sid : String) (ps : List Product) (mode : Mode)
    (now : String) :
    ((upload_products envHttpWrites ⟨some sid, rows⟩ ps mode now).map (fun x => x.1) =
      (upload_products env_ok ⟨some sid, rows⟩ ps mode now).map (fun x => x.1)) ∧
    ((upload_products envHttpWrites ⟨some sid, rows⟩ ps mode now).map (fun x => x.1) ≠
      .error ()) ∧
    ((syncList (get_existing_from 2 rows) now ps).2.1 ≠ [] →
      upload_products envOtherAppend ⟨some sid, rows⟩ ps .update now = .error ()) := by
  refine ⟨?_, ?_, ?_⟩
  · rw [upload_stats_httpw, upload_stats_envok]
  · rw [upload_stats_httpw]; simp
  · intro hne
    simp only [upload_products, clear_data, get_existing_products, batch_append, batch_update,
      envOtherAppend]
    rw [if_neg (by simpa using hne)]

/-- Witness for C3 amended: one new product on an empty configured sheet:
the `HttpError`-failing run reports the stats of the failure-free run, and
the non-`HttpError` append failure is surfaced as a failed run. -/
theorem C3_write_failure_amended_witness :
    ((upload_products envHttpWrites ⟨some (r"sheet1"), []⟩ [prodA] .update (r"T")).map
        (fun x => x.1) =
      (upload_products env_ok ⟨some (r"sheet1"), []⟩ [prodA] .update (r"T")).map
        (fun x => x.1)) ∧
    upload_products envOtherAppend ⟨some (r"sheet1"), []⟩ [prodA] .update (r"T") = .error () := by
  have h := C3_write_failure_amended [] (r"sheet1") [prodA] .update (r"T")
  exact ⟨h.1, h.2.2 (by decide)⟩

/-! Price normalizer (claim C8), from `MihanstoreScraper`. -/

/-- `MihanstoreScraper._clean_price`: drop every character that is not a
decimal digit (`re.sub` with the digit class), parse the rest as base 10,
empty remainder yields 0. -/
def clean_price (s : String) : Nat :=
  (s.data.filter Char.isDigit).foldl (fun a c => 10 * a + (c.toNat - 48)) 0

/-- Grouping separators of the Python comma format spec, on the
little-endian digit list: a comma after every third digit, `k` counts the
digits emitted since the last separator. -/
def commaLE : List Char → Nat → List Char
  | [], _ => []
  | c :: cs, k => if k = 3 then ',' :: c :: commaLE cs 1 else c :: commaLE cs (k + 1)

/-- Decimal digit characters of `n`, little-endian. -/
def digitCharsLE (n : Nat) : List Char := (Nat.digits 10 n).map Nat.digitChar

/-- Decimal rendering of `n` with comma grouping separators (the Python
comma format spec used in `scrape_product`). -/
def format_commas (n : Nat) : String :=
  if n = 0 then r"0" else String.mk ((commaLE (digitCharsLE n) 0).reverse)

/-- The `price_formatted` field built by `scrape_product`: grouped digits
plus the currency suffix for a positive price, the contact-for-price string
for 0. -/
def price_display (n : Nat) : String :=
  if 0 < n then format_commas n ++ r" تومان" else r"تماس بگیرید"

theorem digitChar_toNat (d : Nat) (h : d < 10) : (Nat.digitChar d).toNat = d + 48 := by
  interval_cases d <;> rfl

theorem digitChar_isDigit (d : Nat) (h : d < 10) : (Nat.digitChar d).isDigit = true := by
  interval_cases d <;> rfl

/-- Parsing the big-endian digit characters recovers the number. -/
theorem parse_rev (l : List Nat) (a : Nat) (h : ∀ d ∈ l, d < 10) :
    ((l.map Nat.digitChar).reverse).foldl (fun acc c => 10 * acc + (c.toNat - 48)) a
      = a * 10 ^ l.length + Nat.ofDigits 10 l := by
  induction l generalizing a with
  | nil => simp
  | cons d l ih =>
    have hd : d < 10 := h d (by simp)
    have hl : ∀ x ∈ l, x < 10 := fun x hx => h x (by simp [hx])
    simp only [List.map_cons, List.reverse_cons, List.foldl_append, List.foldl_cons,
      List.foldl_nil]
    rw [ih a hl, digitChar_toNat d hd, Nat.ofDigits_cons]
    simp only [List.length_cons, pow_succ]
    ring_nf
    omega

/-- Removing the non-digit characters of the grouped rendering recovers the
digit list. -/
theorem commaLE_filter (l : List Char) (k : Nat) (h : ∀ c ∈ l, c.isDigit = true) :
    (commaLE l k).filter Char.isDigit = l := by
  induction l generalizing k with
  | nil => rfl
  | cons c cs ih =>
    have hc : c.isDigit = true := h c (by simp)
    have hcs : ∀ x ∈ cs, x.isDigit = true := fun x hx => h x (by simp [hx])
    by_cases hk : k = 3 <;>
      simp [commaLE, hk, List.filter_cons, hc, ih _ hcs]

theorem digits_all_lt (n : Nat) : ∀ d ∈ Nat.digits 10 n, d < 10 :=
  fun _ hd => Nat.digits_lt_base (by norm_num) hd

/-- Round trip: normalizing the display form of `n` returns `n`. -/
theorem clean_price_display (n : Nat) : clean_price (price_display n) = n := by
  rcases Nat.eq_zero_or_pos n with rfl | hn
  · rfl
  · have hne : n ≠ 0 := Nat.pos_iff_ne_zero.mp hn
    simp only [price_display, if_pos hn, format_commas, if_neg hne, clean_price,
      String.data_append]
    rw [List.filter_append]
    have hsf : (String.data (r" تومان")).filter Char.isDigit = [] := by decide
    have hdig : ∀ c ∈ digitCharsLE n, c.isDigit = true := by
      intro c hc
      obtain ⟨d, hd, rfl⟩ := List.mem_map.mp hc
      exact digitChar_isDigit d (digits_all_lt n d hd)
    rw [hsf, List.append_nil]
    show ((commaLE (digitCharsLE n) 0).reverse.filter Char.isDigit).foldl _ 0 = n
    rw [List.filter_reverse, commaLE_filter _ _ hdig]
    have := parse_rev (Nat.digits 10 n) 0 (digits_all_lt n)
    simp only [digitCharsLE]
    rw [this, Nat.ofDigits_digits]
    omega

/-- C8: display formatting round-trips through `to_integer`
(`clean_price (price_display n) = n` for every `n`), `to_integer` of a text
equals `to_integer` of the text with all non-digit characters stripped, and
empty or digit-free input yields 0 (the function is total, never an
error). -/
theorem C8_price_normalizer_roundtrip :
    (∀ n : Nat, clean_price (price_display n) = n) ∧
    (∀ s : String, clean_price (String.mk (s.data.filter Char.isDigit)) = clean_price s) ∧
    (clean_price (String.mk []) = 0) ∧
    (∀ s : String, (∀ c ∈ s.data, ¬ c.isDigit) → clean_price s = 0) := by
  refine ⟨clean_price_display, ?_, rfl, ?_⟩
  · intro s
    simp only [clean_price, List.filter_filter]
    simp
  · intro s h
    have hnil : s.data.filter Char.isDigit = [] := by
      rw [List.filter_eq_nil_iff]
      intro a ha
      simpa using h a ha
    simp only [clean_price, hnil]
    rfl

/-- Witness for C8: the spec scenario price 1698000 round-trips through
`"1,698,000 تومان"`, stripping is idempotent on a sample text, and a
digit-free text normalizes to 0. -/
theorem C8_price_normalizer_roundtrip_witness :
    clean_price (price_display 1698000) = 1698000 ∧
    clean_price (String.mk (String.data (r"1,698,000 تومان") |>.filter Char.isDigit)) =
      clean_price (r"1,698,000 تومان") ∧
    clean_price (r"abc") = 0 := by
  have h := C8_price_normalizer_roundtrip
  exact ⟨h.1 1698000, h.2.1 (r"1,698,000 تومان"), h.2.2.2 (r"abc") (by decide)⟩

/-! Fetcher and link discovery (claims C6 and C7), from `MihanstoreScraper`. -/

/-- Boolean test that the first list is an initial segment of the second. -/
def isPrefixB : List Char → List Char → Bool
  | [], _ => true
  | _ :: _, [] => false
  | a :: as, b :: bs => a == b && isPrefixB as bs

/-- Boolean substring test on character lists. -/
def hasSubL (needle : List Char) : List Char → Bool
  | [] => isPrefixB needle []
  | c :: cs => isPrefixB needle (c :: cs) || hasSubL needle cs

/-- Python's `needle in hay` substring test. -/
def hasSub (needle hay : String) : Bool := hasSubL needle.data hay.data

/-- Split a character list at every occurrence of `sep` (all the separators
used by the URL parsing below are single characters). -/
def splitOnChar (sep : Char) : List Char → List (List Char)
  | [] => [[]]
  | c :: cs =>
    let r := splitOnChar sep cs
    if c = sep then [] :: r else (c :: r.headD []) :: r.tail

/-- Query component of a URL as by `urlparse`: what follows the first `?`,
the fragment after a `#` excluded. -/
def urlQuery (url : String) : List Char :=
  match splitOnChar '?' ((splitOnChar '#' url.data).headD []) with
  | [] => []
  | [_] => []
  | _ :: rest => List.intercalate ['?'] rest

/-- First value of the `id` key as by `parse_qs(query).get('id', [None])[0]`:
fields split on `&`, each partitioned at its first `=`, fields without `=`
or with a blank value skipped.  Percent-decoding is not modelled (it is the
identity on the URLs considered here). -/
def parse_qs_id (query : List Char) : Option String :=
  ((splitOnChar '&' query).filterMap (fun f =>
    match splitOnChar '=' f with
    | [] => none
    | [_] => none
    | k :: rest =>
      if k = (r"id").data ∧ List.intercalate ['='] rest ≠ [] then
        some (String.mk (List.intercalate ['='] rest))
      else none)).head?

/-- `MihanstoreScraper._extract_product_id`. -/
def extract_product_id (url : String) : Option String := parse_qs_id (urlQuery url)

/-- Parsed page handed around by the scraper, reduced to the observations
`scrape_product` and `discover_product_links` make of a `BeautifulSoup`
document: the page title (when the tag exists), the stripped text of the
first `h1` and of the first product-title-class element (empty when
absent), the first text matching the price regular expression, the texts
found by the price selectors (in selector order, `none` when a selector
matches nothing), the resolved `src`/`data-src` of a product-class image,
those of all images (in order, empty when absent), and the `href`s of all
anchors (in document order). -/
structure PDoc where
  title : Option String
  h1_text : String
  product_title_text : String
  price_match : Option String
  price_selector_texts : List (Option String)
  product_img_src : String
  img_srcs : List String
  links : List String
deriving DecidableEq, Repr

/-- The fallback base domains tried for detail pages. -/
def fallback_domains : List String := [r"https://mihanstore.net", r"https://www3.mihanstore.net"]

/-- Fallback loop of `_fetch_page`: tries
`f"{fallback_domain}/product.php?id={product_id}"` for each domain in order,
stopping at the first success; returns the document (if any) and the list
of fallback URLs requested. -/
def tryFallbacks (net : String → Option PDoc) (pid : String) :
    List String → Option PDoc × List String
  | [] => (none, [])
  | d :: ds =>
    match net (d ++ r"/product.php?id=" ++ pid) with
    | some doc => (some doc, [d ++ r"/product.php?id=" ++ pid])
    | none =>
      ((tryFallbacks net pid ds).1, (d ++ r"/product.php?id=" ++ pid) :: (tryFallbacks net pid ds).2)

/-- `MihanstoreScraper._fetch_page` over an abstract network `net` (mapping
a URL to the parsed document of a successful 2xx response, `none` on any
failure).  Returns the document (or `none`) and the trace of fallback URLs
requested after the primary attempt. -/
def fetch_page (net : String → Option PDoc) (url : String) (use_fallback : Bool) :
    Option PDoc × List String :=
  match net url with
  | some d => (some d, [])
  | none =>
    if use_fallback && hasSub (r"product.php") url then
      match extract_product_id url with
      | some pid => tryFallbacks net pid fallback_domains
      | none => (none, [])
    else (none, [])

/-- Link-collection loop of `discover_product_links`: for each `href`
containing `product.php` and `id=`, add `urljoin(store_url, href)` (the
abstract `join`) to the set, and stop as soon as the set has reached
`max_products` links.  The set is modelled as its insertion-ordered list of
distinct elements. -/
def addLinks (join : String → String → String) (store : String) (limit : Nat) :
    List String → List String → List String
  | [], acc => acc
  | h :: hs, acc =>
    if hasSub (r"product.php") h && hasSub (r"id=") h then
      let acc2 := if join store h ∈ acc then acc else acc ++ [join store h]
      if limit ≤ acc2.length then acc2 else addLinks join store limit hs acc2
    else addLinks join store limit hs acc

/-- `MihanstoreScraper.discover_product_links`. -/
def discover_product_links (net : String → Option PDoc) (join : String → String → String)
    (store_url : String) (max_products : Nat) : List String :=
  match (fetch_page net store_url true).1 with
  | none => []
  | some d => addLinks join store_url max_products d.links []

/-- When every request fails, the fallback loop produces no document. -/
theorem tryFallbacks_all_none (net : String → Option PDoc) (pid : String)
    (h : ∀ u, net u = none) : ∀ ds, (tryFallbacks net pid ds).1 = none := by
  intro ds
  induction ds with
  | nil => rfl
  | cons d ds ih => simp only [tryFallbacks, h (d ++ r"/product.php?id=" ++ pid), ih]

/-- C6: fallback-domain requests happen only for URLs that contain
`product.php` and an `id` query value; a failing fetch of a URL without an
`id` value triggers no fallback request and yields no document; and when
every request fails the fetch still returns (no document) instead of
raising. -/
theorem C6_fetch_fallback_guard (net : String → Option PDoc) (url : String) :
    ((fetch_page net url true).2 ≠ [] →
      hasSub (r"product.php") url = true ∧ (extract_product_id url).isSome = true) ∧
    (net url = none → extract_product_id url = none → fetch_page net url true = (none, [])) ∧
    ((∀ u, net u = none) → (fetch_page net url true).1 = none) := by
  refine ⟨?_, ?_, ?_⟩
  · intro hlog
    cases hnet : net url with
    | some d => simp [fetch_page, hnet] at hlog
    | none =>
      by_cases hs : hasSub (r"product.php") url = true
      · cases hpid : extract_product_id url with
        | none => simp [fetch_page, hnet, hs, hpid] at hlog
        | some pid => exact ⟨hs, by simp [hpid]⟩
      · simp [fetch_page, hnet, Bool.and_eq_true, hs] at hlog
  · intro hnet hpid
    by_cases hs : hasSub (r"product.php") url = true <;>
      simp [fetch_page, hnet, hs, hpid]
  · intro hall
    by_cases hs : hasSub (r"product.php") url = true
    · cases hpid : extract_product_id url with
      | none => simp [fetch_page, hall url, hs, hpid]
      | some pid => simp [fetch_page, hall url, hs, hpid, tryFallbacks_all_none net pid hall]
    · simp [fetch_page, hall url, hs]

/-- Witness for C6: on a network where every request fails, fetching the
listing page URL returns no document and issues no fallback request, and
fetching a detail-page URL also returns no document. -/
theorem C6_fetch_fallback_guard_witness :
    fetch_page (fun _ => none) (r"https://dot-shop.mihanstore.net") true = (none, []) ∧
    (fetch_page (fun _ => none) (r"https://dot-shop.mihanstore.net/product.php?id=4521") true).1
      = none := by
  refine ⟨(C6_fetch_fallback_guard _ _).2.1 rfl ?_, (C6_fetch_fallback_guard _ _).2.2 (fun _ => rfl)⟩
  decide

/-- The collection loop preserves distinctness of the collected links. -/
theorem addLinks_nodup (join : String → String → String) (store : String) (limit : Nat) :
    ∀ hs acc, acc.Nodup → (addLinks join store limit hs acc).Nodup := by
  intro hs
  induction hs with
  | nil => intro acc h; exact h
  | cons h hs ih =>
    intro acc hnd
    simp only [addLinks]
    split
    · by_cases hmem : join store h ∈ acc
      · simp only [if_pos hmem]
        split
        · exact hnd
        · exact ih acc hnd
      · simp only [if_neg hmem]
        have hnd2 : (acc ++ [join store h]).Nodup := by
          simp [List.nodup_append, hnd, hmem]
        split
        · exact hnd2
        · exact ih _ hnd2
    · exact ih acc hnd

/-- Starting strictly under the limit, the collection loop never exceeds
it. -/
theorem addLinks_len (join : String → String → String) (store : String) (limit : Nat) :
    ∀ hs acc, acc.length < limit → (addLinks join store limit hs acc).length ≤ limit := by
  intro hs
  induction hs with
  | nil => intro acc h; exact Nat.le_of_lt h
  | cons h hs ih =>
    intro acc hlt
    simp only [addLinks]
    split
    · by_cases hmem : join store h ∈ acc
      · simp only [if_pos hmem]
        split
        · omega
        · exact ih acc hlt
      · simp only [if_neg hmem]
        have hlen1 : (acc ++ [join store h]).length = acc.length + 1 := by simp
        split
        · next hbr => omega
        · next hbr =>
            refine ih _ ?_
            omega
    · exact ih acc hlt

/-- C7 counterexample: with limit 0 and a listing page containing one
product link, discovery still returns that one link, exceeding the limit
(the loop adds a link before checking the cap). -/
def docC : PDoc := ⟨none, blankS, blankS, none, [], blankS, [], [r"x/product.php?id=1"]⟩

/-- Network serving only the listing page `docC` at the base URL. -/
def netC : String → Option PDoc := fun u => if u = r"base" then some docC else none

/-- C7 counterexample theorem: discovery with limit 0 returns a set of size
1, which is not at most 0. -/
theorem C7_limit_zero_cex :
    discover_product_links netC (fun _ h => h) (r"base") 0 = [r"x/product.php?id=1"] ∧
    ¬ ((1 : Nat) ≤ 0) := by
  constructor
  · rfl
  · decide

/-- C7 amended: for every positive limit, discovery returns at most `limit`
links; for every limit the returned links are pairwise distinct even when
the page repeats a link; and when the base page cannot be fetched the empty
set is returned. -/
theorem C7_discovery_amended (net : String → Option PDoc) (join : String → String → String)
    (store : String) (limit : Nat) :
    (1 ≤ limit → (discover_product_links net join store limit).length ≤ limit) ∧
    (discover_product_links net join store limit).Nodup ∧
    ((fetch_page net store true).1 = none → discover_product_links net join store limit = []) := by
  refine ⟨?_, ?_, ?_⟩
  · intro hlim
    cases hf : (fetch_page net store true).1 with
    | none => simp [discover_product_links, hf]
    | some d =>
      simp only [discover_product_links, hf]
      exact addLinks_len join store limit d.links [] (by simpa using hlim)
  · cases hf : (fetch_page net store true).1 with
    | none => simp [discover_product_links, hf]
    | some d =>
      simp only [discover_product_links, hf]
      exact addLinks_nodup join store limit d.links [] (by simp)
  · intro hf
    simp [discover_product_links, hf]

/-- Witness for C7 amended: the concrete page `docC` with limit 1 gives at
most one distinct link, and an unreachable base page gives the empty set. -/
theorem C7_discovery_amended_witness :
    (discover_product_links netC (fun _ h => h) (r"base") 1).length ≤ 1 ∧
    (discover_product_links netC (fun _ h => h) (r"base") 1).Nodup ∧
    discover_product_links (fun _ => none) (fun _ h => h) (r"base") 5 = [] := by
  have h1 := C7_discovery_amended netC (fun _ h => h) (r"base") 1
  have h2 := C7_discovery_amended (fun _ => none) (fun _ h => h) (r"base") 5
  exact ⟨h1.1 (by decide), h1.2.1, h2.2.2 rfl⟩

/-! Field extraction (claim C9), from `MihanstoreScraper.scrape_product`. -/

/-- Name fallback chain of `scrape_product`: the suffix-stripped title text
(`strip` models the fixed `re.sub` rule), then the `h1` text, then the
product-title-class element text; empty results fall through. -/
def nameOf (strip : String → String) (d : PDoc) : String :=
  if (match d.title with | some t => strip t | none => blankS) ≠ blankS then
    (match d.title with | some t => strip t | none => blankS)
  else if d.h1_text ≠ blankS then d.h1_text
  else d.product_title_text

/-- Selector loop of the price extraction: each selector hit is normalized,
a strictly positive value stops the loop, the last normalized value is kept
otherwise. -/
def selLoop : List (Option String) → Nat → Nat
  | [], p => p
  | none :: ts, p => selLoop ts p
  | some t :: ts, _ =>
    if 0 < clean_price t then clean_price t else selLoop ts (clean_price t)

/-- Price fallback chain of `scrape_product`: the first full-document regex
match wins (even if it normalizes to 0); otherwise the selector loop starting
from 0. -/
def priceOf (d : PDoc) : Nat :=
  match d.price_match with
  | some t => clean_price t
  | none => selLoop d.price_selector_texts 0

/-- Image source denylist substrings. -/
def denySubs : List String := [r"logo", r"icon", r"banner", r"button"]

/-- Denylist test on the lower-cased source. -/
def hasDeny (s : String) : Bool := denySubs.any (fun x => hasSub x s.toLower)

/-- Second image strategy: the first image source that is nonempty and not
denylisted. -/
def firstGood : List String → String
  | [] => blankS
  | s :: ss => if s ≠ blankS ∧ hasDeny s = false then s else firstGood ss

/-- Image fallback chain of `scrape_product`, with relative sources resolved
through `urljoin` (the abstract `join`); empty when nothing matched. -/
def imageOf (join : String → String → String) (store : String) (d : PDoc) : String :=
  if (if d.product_img_src ≠ blankS then d.product_img_src else firstGood d.img_srcs) ≠ blankS
      ∧ isPrefixB (String.data (r"http"))
          (if d.product_img_src ≠ blankS then d.product_img_src else firstGood d.img_srcs).data
        = false then
    join store (if d.product_img_src ≠ blankS then d.product_img_src else firstGood d.img_srcs)
  else (if d.product_img_src ≠ blankS then d.product_img_src else firstGood d.img_srcs)

/-- Record-building tail of `MihanstoreScraper.scrape_product` after the
page has been fetched: `none` exactly when no name strategy succeeded. -/
def scrape_extract (strip : String → String) (join : String → String → String)
    (store_url pid now : String) (d : PDoc) : Option Product :=
  if nameOf strip d = blankS then none
  else
    some ⟨pid, r"mihanstore", (nameOf strip d).trim, priceOf d, price_display (priceOf d),
      imageOf join store_url d, store_url ++ r"/product.php?id=" ++ pid, none, none, now⟩

/-- The selector loop keeps its accumulator when no selector matched. -/
theorem selLoop_all_none (ts : List (Option String)) (p : Nat) (h : ∀ o ∈ ts, o = none) :
    selLoop ts p = p := by
  induction ts with
  | nil => rfl
  | cons o ts ih =>
    cases o with
    | none => exact ih (fun x hx => h x (by simp [hx]))
    | some t => exact absurd (h (some t) (by simp)) (by simp)

/-- C9: the record is rejected exactly when the stripped title, the `h1`
text and the product-title-class text are all empty; the first nonempty
strategy in that order provides the name; and a missing price (0) or a
missing image (empty) never rejects an otherwise named record. -/
theorem C9_name_extraction (strip : String → String) (join : String → String → String)
    (store pid now : String) (d : PDoc) :
    (scrape_extract strip join store pid now d = none ↔
      (match d.title with | some t => strip t | none => blankS) = blankS ∧
        d.h1_text = blankS ∧ d.product_title_text = blankS) ∧
    ((match d.title with | some t => strip t | none => blankS) ≠ blankS →
      nameOf strip d = (match d.title with | some t => strip t | none => blankS)) ∧
    ((match d.title with | some t => strip t | none => blankS) = blankS →
      d.h1_text ≠ blankS → nameOf strip d = d.h1_text) ∧
    ((match d.title with | some t => strip t | none => blankS) = blankS →
      d.h1_text = blankS → nameOf strip d = d.product_title_text) ∧
    (∀ p, scrape_extract strip join store pid now d = some p →
      p.name = (nameOf strip d).trim ∧ p.price = priceOf d ∧ p.image = imageOf join store d) ∧
    (d.price_match = none → (∀ o ∈ d.price_selector_texts, o = none) → priceOf d = 0) ∧
    (d.product_img_src = blankS → d.img_srcs = [] → imageOf join store d = blankS) := by
  refine ⟨?_, ?_, ?_, ?_, ?_, ?_, ?_⟩
  · constructor
    · intro hnone
      by_cases hn : nameOf strip d = blankS
      · by_cases h1 : (match d.title with | some t => strip t | none => blankS) = blankS
        · by_cases h2 : d.h1_text = blankS
          · refine ⟨h1, h2, ?_⟩
            simpa [nameOf, h1, h2] using hn
          · exact absurd hn (by simp [nameOf, h1, h2])
        · exact absurd hn (by simp [nameOf, h1])
      · simp [scrape_extract, hn] at hnone
    · rintro ⟨h1, h2, h3⟩
      simp [scrape_extract, nameOf, h1, h2, h3]
  · intro h1
    simp [nameOf, h1]
  · intro h1 h2
    simp [nameOf, h1, h2]
  · intro h1 h2
    simp [nameOf, h1, h2]
  · intro p hp
    by_cases hn : nameOf strip d = blankS
    · simp [scrape_extract, hn] at hp
    · simp only [scrape_extract, if_neg hn, Option.some.injEq] at hp
      subst hp
      exact ⟨rfl, rfl, rfl⟩
  · intro hm hall
    simp [priceOf, hm, selLoop_all_none _ _ hall]
  · intro hi him
    simp [imageOf, hi, him, firstGood, blankS]

/-- A page with no usable name, price or image content. -/
def docEmpty : PDoc := ⟨none, blankS, blankS, none, [], blankS, [], []⟩

/-- A page whose only content is a usable title. -/
def docNamed : PDoc := ⟨some (r"Wireless Mouse"), blankS, blankS, none, [], blankS, [], []⟩

/-- Witness for C9: the empty page is rejected while its price and image
default to 0 and empty; the page with only a title yields an accepted
record. -/
theorem C9_name_extraction_witness :
    scrape_extract (fun s => s) (fun _ h => h) (r"S") (r"1") (r"T") docEmpty = none ∧
    priceOf docEmpty = 0 ∧
    imageOf (fun _ h => h) (r"S") docEmpty = blankS ∧
    (scrape_extract (fun s => s) (fun _ h => h) (r"S") (r"1") (r"T") docNamed).isSome = true := by
  have h1 := C9_name_extraction (fun s => s) (fun _ h => h) (r"S") (r"1") (r"T") docEmpty
  have h2 := C9_name_extraction (fun s => s) (fun _ h => h) (r"S") (r"1") (r"T") docNamed
  refine ⟨h1.1.mpr ⟨rfl, rfl, rfl⟩, h1.2.2.2.2.2.1 rfl (by simp [docEmpty]),
    h1.2.2.2.2.2.2 rfl rfl, ?_⟩
  rcases hs : scrape_extract (fun s => s) (fun _ h => h) (r"S") (r"1") (r"T") docNamed with _ | p
  · exact absurd (h2.1.mp hs).1 (by decide)
  · rfl

/-! Key-map characterization (claims C4 and C5): how `get_existing_products`
relates lookups to row positions. -/

theorem lookup_single (k κ : String) (v : Nat × List Cell) :
    List.lookup k [(κ, v)] = if k = κ then some v else none := by
  by_cases h : k = κ
  · simp [List.lookup, h]
  · have hb : (k == κ) = false := beq_eq_false_iff_ne.mpr h
    simp [List.lookup, hb, h]

/-- A key is absent from the dictionary exactly when no nonempty row carries
it. -/
theorem lookup_gef_none_iff (k : String) : ∀ (i : Nat) (t : Table),
    List.lookup k (get_existing_from i t) = none ↔
      ∀ r ∈ t, 0 < r.length → rowKeyFn r ≠ k := by
  intro i t
  induction t generalizing i with
  | nil => simp [get_existing_from]
  | cons r rs ih =>
    simp only [get_existing_from, List.lookup_append]
    by_cases hr : 0 < r.length
    · simp only [if_pos hr, lookup_single]
      by_cases hk : k = rowKeyFn r
      · simp only [if_pos hk]
        constructor
        · intro h
          exact absurd h (by cases List.lookup k (get_existing_from (i + 1) rs) <;> simp)
        · intro h
          exact absurd (hk ▸ h r (by simp) hr) (by simp)
      · simp only [if_neg hk, Option.or_none]
        rw [ih (i + 1)]
        constructor
        · intro h r2 hr2 hlen
          rcases List.mem_cons.mp hr2 with rfl | hmem
          · exact fun he => hk he.symm
          · exact h r2 hmem hlen
        · intro h r2 hr2 hlen
          exact h r2 (by simp [hr2]) hlen
    · simp only [if_neg hr, List.append_nil, List.lookup_nil, Option.or_none]
      rw [ih (i + 1)]
      constructor
      · intro h r2 hr2 hlen
        rcases List.mem_cons.mp hr2 with rfl | hmem
        · exact absurd hlen hr
        · exact h r2 hmem hlen
      · intro h r2 hr2 hlen
        exact h r2 (by simp [hr2]) hlen

/-- A successful lookup returns the last nonempty row carrying the key,
together with its sheet row number. -/
theorem lookup_gef_some (k : String) : ∀ (i : Nat) (t : Table) (j : Nat) (row : List Cell),
    List.lookup k (get_existing_from i t) = some (j, row) →
    ∃ m, m < t.length ∧ j = i + m ∧ t[m]? = some row ∧ 0 < row.length ∧ rowKeyFn row = k ∧
      ∀ m2 r2, m < m2 → t[m2]? = some r2 → 0 < r2.length → rowKeyFn r2 ≠ k := by
  intro i t
  induction t generalizing i with
  | nil => intro j row h; simp [get_existing_from] at h
  | cons r rs ih =>
    intro j row h
    simp only [get_existing_from, List.lookup_append] at h
    cases hA : List.lookup k (get_existing_from (i + 1) rs) with
    | some v =>
      rw [hA] at h
      have hv : v = (j, row) := by simpa using h
      subst hv
      obtain ⟨m, hmlt, hj, hget, hlen, hkey, hafter⟩ := ih (i + 1) j row hA
      refine ⟨m + 1, by simpa using hmlt, by omega, by simpa using hget, hlen, hkey, ?_⟩
      intro m2 r2 hm2 hget2 hlen2
      rcases m2 with _ | m2
      · omega
      · exact hafter m2 r2 (by omega) (by simpa using hget2) hlen2
    | none =>
      rw [hA] at h
      simp only [Option.none_or] at h
      by_cases hr : 0 < r.length
      · rw [if_pos hr, lookup_single] at h
        by_cases hk : k = rowKeyFn r
        · rw [if_pos hk] at h
          obtain ⟨rfl, rfl⟩ : i = j ∧ r = row := by
            have := Option.some.inj h
            exact ⟨congrArg Prod.fst this, congrArg Prod.snd this⟩
          refine ⟨0, by simp, by simp, by simp, hr, hk.symm, ?_⟩
          intro m2 r2 hm2 hget hlen
          have hmem : r2 ∈ rs := by
            rcases m2 with _ | m2
            · omega
            · exact List.getElem?_mem (by simpa using hget)
          exact (lookup_gef_none_iff k (i + 1) rs).mp hA r2 hmem hlen
        · rw [if_neg hk] at h
          exact absurd h (by simp)
      · rw [if_neg hr] at h
        simp at h

/-- Conversely, the last nonempty row carrying a key is what lookup
returns. -/
theorem lookup_gef_last (k : String) : ∀ (i : Nat) (t : Table) (m : Nat) (row : List Cell),
    t[m]? = some row → 0 < row.length → rowKeyFn row = k →
    (∀ m2 r2, m < m2 → t[m2]? = some r2 → 0 < r2.length → rowKeyFn r2 ≠ k) →
    List.lookup k (get_existing_from i t) = some (i + m, row) := by
  intro i t
  induction t generalizing i with
  | nil => intro m row h; simp at h
  | cons r rs ih =>
    intro m row hget hlen hkey hafter
    simp only [get_existing_from, List.lookup_append]
    rcases m with _ | m
    · have hr : r = row := by simpa using hget
      subst hr
      have hnone : List.lookup k (get_existing_from (i + 1) rs) = none := by
        rw [lookup_gef_none_iff]
        intro r2 hr2 hlen2
        obtain ⟨n, hn⟩ := List.mem_iff_getElem?.mp hr2
        exact hafter (n + 1) r2 (by omega) (by simpa using hn) hlen2
      rw [hnone]
      simp only [Option.none_or, if_pos hlen, lookup_single, if_pos hkey.symm]
      simp
    · have hA := ih (i + 1) m row (by simpa using hget) hlen hkey
        (fun m2 r2 hm2 hget2 hlen2 => hafter (m2 + 1) r2 (by omega) (by simpa using hget2) hlen2)
      have harith : i + 1 + m = i + (m + 1) := by omega
      rw [harith] at hA
      rw [hA]
      rfl

/-! Effect of the batched update on the data rows. -/

theorem applyUpdates_nil (t : Table) : applyUpdates t [] = t := rfl

theorem applyUpdates_cons (t : Table) (e : Nat × List Cell) (es : List (Nat × List Cell)) :
    applyUpdates t (e :: es) = applyUpdates (t.set (e.1 - 2) e.2) es := rfl

theorem applyUpdates_length : ∀ (upds : List (Nat × List Cell)) (t : Table),
    (applyUpdates t upds).length = t.length := by
  intro upds
  induction upds with
  | nil => intro t; rfl
  | cons e es ih => intro t; rw [applyUpdates_cons, ih, List.length_set]

/-- A position targeted by no update keeps its row. -/
theorem applyUpdates_untouched : ∀ (upds : List (Nat × List Cell)) (t : Table) (j : Nat),
    (∀ e ∈ upds, e.1 - 2 ≠ j) → (applyUpdates t upds)[j]? = t[j]? := by
  intro upds
  induction upds with
  | nil => intro t j _; rfl
  | cons e es ih =>
    intro t j h
    rw [applyUpdates_cons, ih _ j (fun x hx => h x (List.mem_cons_of_mem _ hx)),
      List.getElem?_set_ne (h e (List.mem_cons_self _ _))]

/-- A position targeted by exactly one update receives that update's row. -/
theorem applyUpdates_hit : ∀ (upds : List (Nat × List Cell)) (t : Table) (rn : Nat)
    (v : List Cell), (rn, v) ∈ upds → (upds.map (fun e => e.1)).Nodup →
    (∀ e ∈ upds, 2 ≤ e.1) → rn - 2 < t.length →
    (applyUpdates t upds)[rn - 2]? = some v := by
  intro upds
  induction upds with
  | nil => intro t rn v h; simp at h
  | cons e es ih =>
    intro t rn v hmem hnd h2 hlt
    rw [List.map_cons] at hnd
    have hnd1 := (List.nodup_cons.mp hnd).1
    have hnd2 := (List.nodup_cons.mp hnd).2
    rcases List.mem_cons.mp hmem with rfl | hmem'
    · rw [applyUpdates_cons]
      have huntouched : ∀ x ∈ es, x.1 - 2 ≠ rn - 2 := by
        intro x hx
        have hxne : x.1 ≠ rn := by
          intro hcon
          apply hnd1
          simpa [hcon] using List.mem_map_of_mem (fun e => e.1) hx
        have hx2 := h2 x (List.mem_cons_of_mem _ hx)
        have hrn2 := h2 (rn, v) (List.mem_cons_self _ _)
        simp at hrn2
        omega
      rw [applyUpdates_untouched es _ _ huntouched]
      exact List.getElem?_set_self hlt
    · rw [applyUpdates_cons]
      exact ih _ rn v hmem' hnd2 (fun x hx => h2 x (List.mem_cons_of_mem _ hx))
        (by simpa [List.length_set] using hlt)

/-- Every position either keeps its row or holds the payload of one of the
updates. -/
theorem applyUpdates_or : ∀ (upds : List (Nat × List Cell)) (t : Table) (j : Nat),
    (applyUpdates t upds)[j]? = t[j]? ∨
      ∃ e ∈ upds, e.1 - 2 = j ∧ (applyUpdates t upds)[j]? = some e.2 := by
  intro upds
  induction upds with
  | nil => intro t j; exact Or.inl rfl
  | cons e es ih =>
    intro t j
    rw [applyUpdates_cons]
    rcases ih (t.set (e.1 - 2) e.2) j with h | ⟨x, hx, hje, hv⟩
    · by_cases hj : e.1 - 2 = j
      · subst hj
        by_cases hlt : e.1 - 2 < t.length
        · right
          exact ⟨e, List.mem_cons_self _ _, rfl, by rw [h, List.getElem?_set_self hlt]⟩
        · left
          rw [h, List.set_eq_of_length_le (by omega)]
      · left
        rw [h, List.getElem?_set_ne hj]
    · right
      exact ⟨x, List.mem_cons_of_mem _ hx, hje, hv⟩

/-! Characterization of the diff loop output (claims C4 and C5). -/

/-- Decision of the diff loop to schedule an overwrite for a product. -/
def updB (m : KeyMap) (p : Product) : Bool :=
  match List.lookup (pkey p) m with
  | some (_, old) =>
    decide (3 < old.length) && decide (old.getD 3 (Cell.s blankS) ≠ Cell.n p.price)
  | none => false

/-- Row number the overwrite of a product is scheduled at. -/
def updIdx (m : KeyMap) (p : Product) : Nat :=
  match List.lookup (pkey p) m with
  | some (j, _) => j
  | none => 0

theorem updB_true_spec (m : KeyMap) (p : Product) (h : updB m p = true) :
    ∃ old, List.lookup (pkey p) m = some (updIdx m p, old) ∧ 3 < old.length ∧
      old.getD 3 (Cell.s blankS) ≠ Cell.n p.price := by
  rcases hlk : List.lookup (pkey p) m with _ | ⟨j, old⟩
  · simp [updB, hlk] at h
  · refine ⟨old, by simp [updIdx, hlk], ?_⟩
    simpa [updB, hlk] using h

theorem updB_false_spec (m : KeyMap) (p : Product) (j : Nat) (old : List Cell)
    (hlk : List.lookup (pkey p) m = some (j, old)) (h : updB m p = false) :
    ¬ (3 < old.length ∧ old.getD 3 (Cell.s blankS) ≠ Cell.n p.price) := by
  simpa [updB, hlk, Decidable.not_and_iff_or_not] using h

/-- The rows scheduled for appending are exactly the rows of the products
whose key is absent, in input order. -/
theorem syncList_adds (m : KeyMap) (now : String) : ∀ ps : List Product,
    (syncList m now ps).2.1 =
      (ps.filter (fun p => (List.lookup (pkey p) m).isNone)).map (product_to_row now) := by
  intro ps
  induction ps with
  | nil => rfl
  | cons p ps ih =>
    rcases hlk : List.lookup (pkey p) m with _ | ⟨rn, old⟩
    · rw [syncList_cons_none m now p ps hlk]
      simp [List.filter_cons, hlk, ih]
    · by_cases hc : 3 < old.length ∧ old.getD 3 (Cell.s blankS) ≠ Cell.n p.price
      · rw [syncList_cons_upd m now p ps rn old hlk hc]
        simp [List.filter_cons, hlk, ih]
      · rw [syncList_cons_unch m now p ps rn old hlk hc]
        simp [List.filter_cons, hlk, ih]

/-- The scheduled overwrites are exactly those of the products whose stored
price differs, at their stored row numbers. -/
theorem syncList_upds (m : KeyMap) (now : String) : ∀ ps : List Product,
    (syncList m now ps).2.2 =
      (ps.filter (updB m)).map (fun p => (updIdx m p, product_to_row now p)) := by
  intro ps
  induction ps with
  | nil => rfl
  | cons p ps ih =>
    rcases hlk : List.lookup (pkey p) m with _ | ⟨rn, old⟩
    · rw [syncList_cons_none m now p ps hlk]
      simp [List.filter_cons, updB, hlk, ih]
    · by_cases hc : 3 < old.length ∧ old.getD 3 (Cell.s blankS) ≠ Cell.n p.price
      · rw [syncList_cons_upd m now p ps rn old hlk hc]
        have hb : updB m p = true := by
          simp only [updB, hlk, Bool.and_eq_true, decide_eq_true_eq]
          exact ⟨hc.1, hc.2⟩
        have hi : updIdx m p = rn := by simp [updIdx, hlk]
        simp [List.filter_cons, hb, hi, ih]
      · rw [syncList_cons_unch m now p ps rn old hlk hc]
        have hb : updB m p = false := by
          cases hb0 : updB m p
          · rfl
          · obtain ⟨old2, hlk2, hl2, hne2⟩ := updB_true_spec m p hb0
            rw [hlk] at hlk2
            have hold : old = old2 := congrArg Prod.snd (Option.some.inj hlk2)
            subst hold
            exact absurd ⟨hl2, hne2⟩ hc
        simp [List.filter_cons, hb, ih]

/-- When every product finds its stored row unchanged, the whole run counts
everything `unchanged` and schedules no write. -/
theorem syncList_all_unch (m : KeyMap) (now : String) : ∀ ps : List Product,
    (∀ p ∈ ps, ∃ j old, List.lookup (pkey p) m = some (j, old) ∧
      ¬ (3 < old.length ∧ old.getD 3 (Cell.s blankS) ≠ Cell.n p.price)) →
    syncList m now ps = (⟨0, 0, ps.length⟩, [], []) := by
  intro ps
  induction ps with
  | nil => intro _; rfl
  | cons p ps ih =>
    intro h
    obtain ⟨j, old, hlk, hcond⟩ := h p (List.mem_cons_self _ _)
    rw [syncList_cons_unch m now p ps j old hlk hcond,
      ih (fun q hq => h q (List.mem_cons_of_mem _ hq))]
    simp

/-- Full description of a failure-free update-mode run: the stats come from
the diff loop, and the table receives the appends then the overwrites. -/
theorem upload_envok_update_eq (sid : String) (rows : Table) (ps : List Product) (now : String) :
    upload_products env_ok ⟨some sid, rows⟩ ps .update now =
      .ok ((syncList (get_existing_from 2 rows) now ps).1,
        applyUpdates (rows ++ (syncList (get_existing_from 2 rows) now ps).2.1)
          (syncList (get_existing_from 2 rows) now ps).2.2,
        [Req.read] ++
          (if (syncList (get_existing_from 2 rows) now ps).2.1.isEmpty then [] else [Req.append]) ++
          (if (syncList (get_existing_from 2 rows) now ps).2.2.isEmpty then [] else [Req.update])) := by
  by_cases hA : (syncList (get_existing_from 2 rows) now ps).2.1.isEmpty <;>
  by_cases hU : (syncList (get_existing_from 2 rows) now ps).2.2.isEmpty <;>
    simp only [upload_products, clear_data, get_existing_products, batch_append, batch_update,
      env_ok, hA, hU, if_true, if_false]
  · rw [List.isEmpty_iff.mp hA, List.isEmpty_iff.mp hU]
    simp [applyUpdates_nil]
  · rw [List.isEmpty_iff.mp hA]
    simp
  · rw [List.isEmpty_iff.mp hU]
    simp [applyUpdates_nil]
  · simp

/-! Key preservation (claim C4). -/

theorem set_getElem?_self {α : Type} : ∀ (l : List α) (j : Nat) (a : α),
    l[j]? = some a → l.set j a = l := by
  intro l
  induction l with
  | nil => intro j a h; simp at h
  | cons x xs ih =>
    intro j a h
    rcases j with _ | j
    · simp at h
      simp [h]
    · simp only [List.getElem?_cons_succ] at h
      simp [ih j a h]

/-- Overwrites whose payload carries the key already stored at the target
position leave the per-position keys of the table unchanged. -/
theorem applyUpdates_map_keyOpt : ∀ (upds : List (Nat × List Cell)) (t : Table),
    (∀ e ∈ upds, (t.map keyOpt)[e.1 - 2]? = some (keyOpt e.2)) →
    (applyUpdates t upds).map keyOpt = t.map keyOpt := by
  intro upds
  induction upds with
  | nil => intro t _; rfl
  | cons e es ih =>
    intro t hI
    have hIe := hI e (List.mem_cons_self _ _)
    have hlt : e.1 - 2 < (t.map keyOpt).length := (List.getElem?_eq_some_iff.mp hIe).1
    have hset : (t.set (e.1 - 2) e.2).map keyOpt = t.map keyOpt := by
      rw [List.map_set]
      exact set_getElem?_self _ _ _ hIe
    rw [applyUpdates_cons, ih (t.set (e.1 - 2) e.2) ?_, hset]
    intro x hx
    rw [List.map_set]
    by_cases hxj : x.1 - 2 = e.1 - 2
    · rw [hxj, List.getElem?_set_self hlt]
      have h1 := hI x (List.mem_cons_of_mem _ hx)
      rw [hxj, hIe] at h1
      exact congrArg some (Option.some.inj h1)
    · rw [List.getElem?_set_ne (fun hc => hxj hc.symm)]
      exact hI x (List.mem_cons_of_mem _ hx)

theorem keysOf_eq_filterMap_id (t : Table) : keysOf t = (t.map keyOpt).filterMap id := by
  rw [List.filterMap_map]
  rfl

theorem keyOpt_product_row (now : String) (p : Product) :
    keyOpt (product_to_row now p) = some (pkey p) := rfl

theorem keysOf_map_rows (now : String) (qs : List Product) :
    keysOf (qs.map (product_to_row now)) = qs.map pkey := by
  rw [keysOf, List.filterMap_map]
  exact List.filterMap_eq_map_iff_forall_eq_some.mpr (fun q _ => keyOpt_product_row now q)

theorem mem_keysOf {k : String} {t : Table} :
    k ∈ keysOf t ↔ ∃ r ∈ t, 0 < r.length ∧ rowKeyFn r = k := by
  constructor
  · intro h
    obtain ⟨r, hr, hk⟩ := List.mem_filterMap.mp h
    by_cases hlen : 0 < r.length
    · rw [keyOpt, if_pos hlen] at hk
      exact ⟨r, hr, hlen, Option.some.inj hk⟩
    · rw [keyOpt, if_neg hlen] at hk
      exact absurd hk (by simp)
  · rintro ⟨r, hr, hlen, rfl⟩
    exact List.mem_filterMap.mpr ⟨r, hr, by rw [keyOpt, if_pos hlen]⟩

/-- C4 counterexample: a scraped list holding the same key twice against an
empty table double-appends the key; the synchronized table then has two rows
with the same `(platform, product_id)` key. -/
theorem C4_duplicate_append_cex :
    upload_products env_ok ⟨some (r"sheet1"), []⟩ [prodA, prodA] .update (r"T") =
      .ok (⟨2, 0, 0⟩, [product_to_row (r"T") prodA, product_to_row (r"T") prodA],
        [Req.read, Req.append]) ∧
    ¬ (keysOf [product_to_row (r"T") prodA, product_to_row (r"T") prodA]).Nodup := by
  exact ⟨rfl, by decide⟩

/-- C4 amended: when the starting table's nonempty rows have pairwise
distinct keys and the scraped products have pairwise distinct keys, the
table after a failure-free update-mode run again has pairwise distinct
keys. -/
theorem C4_unique_keys_amended (rows : Table) (sid : String) (ps : List Product) (now : String)
    (s : Stats) (t2 : Table) (log : List Req)
    (hkeys : (keysOf rows).Nodup) (hpk : (ps.map pkey).Nodup)
    (hok : upload_products env_ok ⟨some sid, rows⟩ ps .update now = .ok (s, t2, log)) :
    (keysOf t2).Nodup := by
  rw [upload_envok_update_eq sid rows ps now] at hok
  simp only [Except.ok.injEq, Prod.mk.injEq] at hok
  obtain ⟨-, ht2, -⟩ := hok
  subst ht2
  have hadds := syncList_adds (get_existing_from 2 rows) now ps
  have hupds := syncList_upds (get_existing_from 2 rows) now ps
  have hinv : ∀ e ∈ (syncList (get_existing_from 2 rows) now ps).2.2,
      (((rows ++ (syncList (get_existing_from 2 rows) now ps).2.1).map keyOpt))[e.1 - 2]?
        = some (keyOpt e.2) := by
    intro e he
    rw [hupds] at he
    obtain ⟨q, hq, rfl⟩ := List.mem_map.mp he
    have hqB : updB (get_existing_from 2 rows) q = true := List.of_mem_filter hq
    obtain ⟨old, hlk, hlen3, hne⟩ := updB_true_spec _ q hqB
    obtain ⟨mq, hmlt, hj, hget, hlen0, hkey, hafter⟩ :=
      lookup_gef_some (pkey q) 2 rows _ _ hlk
    have hidx : updIdx (get_existing_from 2 rows) q - 2 = mq := by omega
    show ((rows ++ _).map keyOpt)[updIdx (get_existing_from 2 rows) q - 2]? = _
    rw [hidx, List.map_append, List.getElem?_append_left (by simpa using hmlt),
      List.getElem?_map, hget]
    have hko : keyOpt old = some (pkey q) := by rw [keyOpt, if_pos hlen0, hkey]
    simp [hko, keyOpt_product_row]
  rw [keysOf_eq_filterMap_id, applyUpdates_map_keyOpt _ _ hinv, ← keysOf_eq_filterMap_id]
  rw [keysOf, List.filterMap_append, ← keysOf, ← keysOf, hadds, keysOf_map_rows]
  rw [List.nodup_append]
  refine ⟨hkeys, ?_, ?_⟩
  · exact hpk.sublist ((List.filter_sublist ps).map pkey)
  · intro k hk1 hk2
    obtain ⟨row, hr, hlen, hkr⟩ := mem_keysOf.mp hk1
    obtain ⟨q, hq, rfl⟩ := List.mem_map.mp hk2
    have hqn := (List.mem_filter.mp hq).2
    have hnone : List.lookup (pkey q) (get_existing_from 2 rows) = none :=
      Option.isNone_iff_eq_none.mp (by simpa using hqn)
    exact (lookup_gef_none_iff (pkey q) 2 rows).mp hnone row hr hlen hkr

/-- Witness for C4 amended: one product uploaded into an empty table leaves
a table with distinct keys. -/
theorem C4_unique_keys_amended_witness :
    (keysOf [product_to_row (r"T") prodA]).Nodup :=
  C4_unique_keys_amended [] (r"sheet1") [prodA] (r"T") ⟨1, 0, 0⟩
    [product_to_row (r"T") prodA] [Req.read, Req.append] (by decide) (by decide) rfl

/-! Re-synchronization (claim C5). -/

/-- After a failure-free update-mode run over products with pairwise
distinct keys, every product finds in the resulting table a stored row
whose price cell already matches its price, so a second identical run
classifies everything `unchanged`. -/
theorem run1_unch (rows : Table) (ps : List Product) (now : String)
    (hpk : (ps.map pkey).Nodup) :
    ∀ p ∈ ps, ∃ j old,
      List.lookup (pkey p)
        (get_existing_from 2
          (applyUpdates (rows ++ (syncList (get_existing_from 2 rows) now ps).2.1)
            (syncList (get_existing_from 2 rows) now ps).2.2)) = some (j, old) ∧
      ¬ (3 < old.length ∧ old.getD 3 (Cell.s blankS) ≠ Cell.n p.price) := by
  intro p hp
  have hadds := syncList_adds (get_existing_from 2 rows) now ps
  have hupds := syncList_upds (get_existing_from 2 rows) now ps
  have hinj : ∀ a ∈ ps, ∀ b ∈ ps, pkey a = pkey b → a = b :=
    fun a ha b hb => List.inj_on_of_nodup_map hpk ha hb
  have hpsnd : ps.Nodup := List.Nodup.of_map pkey hpk
  -- facts about every scheduled update
  have hq_facts : ∀ q ∈ ps, updB (get_existing_from 2 rows) q = true → ∃ mq old2,
      mq < rows.length ∧ updIdx (get_existing_from 2 rows) q = 2 + mq ∧
      rows[mq]? = some old2 ∧ 0 < old2.length ∧ rowKeyFn old2 = pkey q ∧ 3 < old2.length ∧
      old2.getD 3 (Cell.s blankS) ≠ Cell.n q.price ∧
      (∀ m2 r2, mq < m2 → rows[m2]? = some r2 → 0 < r2.length → rowKeyFn r2 ≠ pkey q) := by
    intro q hq hqB
    obtain ⟨old2, hlk, hlen3, hne⟩ := updB_true_spec _ q hqB
    obtain ⟨mq, hmlt, hj, hget, hlen0, hkey, hafter⟩ := lookup_gef_some (pkey q) 2 rows _ _ hlk
    exact ⟨mq, old2, hmlt, by omega, hget, hlen0, hkey, hlen3, hne, hafter⟩
  -- every update hits the original-rows region, below rows.length
  have hupds_low : ∀ e ∈ (syncList (get_existing_from 2 rows) now ps).2.2,
      2 ≤ e.1 ∧ e.1 - 2 < rows.length ∧
      ∃ q ∈ ps, updB (get_existing_from 2 rows) q = true ∧
        e = (updIdx (get_existing_from 2 rows) q, product_to_row now q) := by
    intro e he
    rw [hupds] at he
    obtain ⟨q, hqf, rfl⟩ := List.mem_map.mp he
    have hqps := (List.mem_filter.mp hqf).1
    have hqB := (List.mem_filter.mp hqf).2
    obtain ⟨mq, old2, hmlt, hj, -, -, -, -, -, -⟩ := hq_facts q hqps hqB
    exact ⟨by omega, by omega, q, hqps, hqB, rfl⟩
  -- positions in the appended region are never overwritten
  have hT_adds : ∀ idx, rows.length ≤ idx →
      (applyUpdates (rows ++ (syncList (get_existing_from 2 rows) now ps).2.1)
        (syncList (get_existing_from 2 rows) now ps).2.2)[idx]? =
      (syncList (get_existing_from 2 rows) now ps).2.1[idx - rows.length]? := by
    intro idx hidx
    rw [applyUpdates_untouched _ _ idx
      (fun e he => by have := (hupds_low e he).2.1; omega)]
    exact List.getElem?_append_right hidx
  -- a row read back from the appended region is a freshly added product row
  have hnewPs : ∀ idx q',
      (ps.filter (fun x => (List.lookup (pkey x) (get_existing_from 2 rows)).isNone))[idx]?
          = some q' →
      (applyUpdates (rows ++ (syncList (get_existing_from 2 rows) now ps).2.1)
        (syncList (get_existing_from 2 rows) now ps).2.2)[rows.length + idx]? =
        some (product_to_row now q') := by
    intro idx q' hq'
    rw [hT_adds (rows.length + idx) (by omega), hadds]
    simp [List.getElem?_map, hq']
  have rowKeyFn_row : ∀ q : Product, rowKeyFn (product_to_row now q) = pkey q := fun _ => rfl
  -- characterization of the final-table rows that carry the key of p
  have hchar : ∀ m2 r2,
      (applyUpdates (rows ++ (syncList (get_existing_from 2 rows) now ps).2.1)
        (syncList (get_existing_from 2 rows) now ps).2.2)[m2]? = some r2 →
      0 < r2.length → rowKeyFn r2 = pkey p →
      (m2 < rows.length ∧ rows[m2]? = some r2) ∨
      (m2 < rows.length ∧ p ∈ ps.filter (updB (get_existing_from 2 rows)) ∧
        updIdx (get_existing_from 2 rows) p = 2 + m2 ∧ r2 = product_to_row now p) ∨
      (rows.length ≤ m2 ∧
        (ps.filter (fun x =>
          (List.lookup (pkey x) (get_existing_from 2 rows)).isNone))[m2 - rows.length]?
          = some p ∧ r2 = product_to_row now p) := by
    intro m2 r2 hT2 hlen2 hkey2
    by_cases hm2 : m2 < rows.length
    · rcases applyUpdates_or (syncList (get_existing_from 2 rows) now ps).2.2
        (rows ++ (syncList (get_existing_from 2 rows) now ps).2.1) m2 with h | ⟨e, he, hej, hev⟩
      · left
        rw [hT2, List.getElem?_append_left hm2] at h
        exact ⟨hm2, h.symm⟩
      · right
        left
        obtain ⟨h2le, hlow, q, hqps, hqB, rfl⟩ := hupds_low e he
        rw [hT2] at hev
        have hr2 : r2 = product_to_row now q := by
          exact Option.some.inj hev
        subst hr2
        have hqp : q = p := hinj q hqps p hp (by rw [← rowKeyFn_row q, hkey2])
        subst hqp
        have hidx : updIdx (get_existing_from 2 rows) q = 2 + m2 := by
          simp only at hej h2le
          omega
        exact ⟨hm2, List.mem_filter.mpr ⟨hqps, hqB⟩, hidx, rfl⟩
    · right
      right
      push_neg at hm2
      have h1 := hT_adds m2 hm2
      rw [hT2, hadds, List.getElem?_map] at h1
      cases hq' : (ps.filter (fun x =>
          (List.lookup (pkey x) (get_existing_from 2 rows)).isNone))[m2 - rows.length]? with
      | none =>
        rw [hq'] at h1
        simp at h1
      | some q' =>
        rw [hq'] at h1
        have hr2 : r2 = product_to_row now q' := by simpa using h1
        subst hr2
        have hq'ps : q' ∈ ps := (List.mem_filter.mp (List.getElem?_mem hq')).1
        have hqp : q' = p := hinj q' hq'ps p hp (by rw [← rowKeyFn_row q', hkey2])
        subst hqp
        exact ⟨hm2, rfl, rfl⟩
  rcases hlk : List.lookup (pkey p) (get_existing_from 2 rows) with _ | ⟨j, old⟩
  · -- the product was appended by the first run
    have hpnew : p ∈ ps.filter (fun x =>
        (List.lookup (pkey x) (get_existing_from 2 rows)).isNone) :=
      List.mem_filter.mpr ⟨hp, by simp [hlk]⟩
    obtain ⟨l1, l2, hsplit⟩ := List.append_of_mem hpnew
    have hpos : (ps.filter (fun x =>
        (List.lookup (pkey x) (get_existing_from 2 rows)).isNone))[l1.length]? = some p := by
      rw [hsplit, List.getElem?_append_right (le_refl _)]
      simp
    have hTpos := hnewPs l1.length p hpos
    refine ⟨2 + (rows.length + l1.length), product_to_row now p,
      lookup_gef_last (pkey p) 2 _ (rows.length + l1.length) (product_to_row now p) hTpos
        (by simp [product_to_row]) (rowKeyFn_row p) ?_, ?_⟩
    · intro m2 r2 hm2 hget2 hlen2 heq
      rcases hchar m2 r2 hget2 hlen2 heq with ⟨hlt, -⟩ | ⟨hlt, hupdp, -, -⟩ | ⟨hge, hgetp, -⟩
      · omega
      · have hBp := (List.mem_filter.mp hupdp).2
        obtain ⟨old2, hlk2, -, -⟩ := updB_true_spec _ p hBp
        rw [hlk] at hlk2
        exact absurd hlk2 (by simp)
      · have hlen_new : l1.length <
            (ps.filter (fun x =>
              (List.lookup (pkey x) (get_existing_from 2 rows)).isNone)).length := by
          rw [hsplit]
          simp
        have := List.getElem?_inj hlen_new (hpsnd.filter _) (hpos.trans hgetp.symm)
        omega
    · rintro ⟨-, hne⟩
      exact hne rfl
  · -- the product key was present in the table read by the first run
    obtain ⟨mq, hmlt, hj, hget, hlen0, hkeyq, hafter⟩ := lookup_gef_some (pkey p) 2 rows j old hlk
    have hupIdx : updIdx (get_existing_from 2 rows) p = j := by simp [updIdx, hlk]
    cases hB : updB (get_existing_from 2 rows) p
    · -- classified unchanged: the stored row survives untouched
      have huntouched : ∀ e ∈ (syncList (get_existing_from 2 rows) now ps).2.2,
          e.1 - 2 ≠ mq := by
        intro e he hcon
        obtain ⟨h2le, hlow, q, hqps, hqB, rfl⟩ := hupds_low e he
        obtain ⟨mq2, old2, hmlt2, hj2, hget2, hlen02, hkey2, -, -, -⟩ := hq_facts q hqps hqB
        have hmq2 : mq2 = mq := by
          simp only at hcon
          omega
        subst hmq2
        rw [hget] at hget2
        have hold : old = old2 := Option.some.inj hget2
        have hkk : pkey q = pkey p := by rw [← hkey2, ← hold, hkeyq]
        have hqp := hinj q hqps p hp hkk
        subst hqp
        simp [hB] at hqB
      have hTmq : (applyUpdates (rows ++ (syncList (get_existing_from 2 rows) now ps).2.1)
          (syncList (get_existing_from 2 rows) now ps).2.2)[mq]? = some old := by
        rw [applyUpdates_untouched _ _ mq huntouched, List.getElem?_append_left hmlt]
        exact hget
      refine ⟨2 + mq, old,
        lookup_gef_last (pkey p) 2 _ mq old hTmq hlen0 hkeyq ?_,
        updB_false_spec _ p j old hlk hB⟩
      intro m2 r2 hm2 hget2 hlen2 heq
      rcases hchar m2 r2 hget2 hlen2 heq with ⟨hlt, hrget⟩ | ⟨hlt, hupdp, -, -⟩ | ⟨hge, hgetp, -⟩
      · exact hafter m2 r2 hm2 hrget hlen2 heq
      · have hBp := (List.mem_filter.mp hupdp).2
        simp [hB] at hBp
      · have hnn := (List.mem_filter.mp (List.getElem?_mem hgetp)).2
        simp [hlk] at hnn
    · -- classified updated: the overwritten row carries the fresh price
      have hpupd : p ∈ ps.filter (updB (get_existing_from 2 rows)) :=
        List.mem_filter.mpr ⟨hp, hB⟩
      have hmem : (updIdx (get_existing_from 2 rows) p, product_to_row now p) ∈
          (syncList (get_existing_from 2 rows) now ps).2.2 := by
        rw [hupds]
        exact List.mem_map_of_mem _ hpupd
      have hndidx : (((syncList (get_existing_from 2 rows) now ps).2.2).map
          (fun e => e.1)).Nodup := by
        rw [hupds, List.map_map]
        refine (hpsnd.filter _).map_on ?_
        intro q1 hq1 q2 hq2 hEq
        simp only [Function.comp] at hEq
        obtain ⟨mq1, o1, hm1, hj1, hg1, hl1, hk1, -, -, -⟩ :=
          hq_facts q1 (List.mem_filter.mp hq1).1 (List.mem_filter.mp hq1).2
        obtain ⟨mq2, o2, hm2x, hj2, hg2, hl2, hk2, -, -, -⟩ :=
          hq_facts q2 (List.mem_filter.mp hq2).1 (List.mem_filter.mp hq2).2
        have hmm : mq1 = mq2 := by omega
        subst hmm
        rw [hg1] at hg2
        have ho : o1 = o2 := Option.some.inj hg2
        have hkk : pkey q1 = pkey q2 := by rw [← hk1, ho, hk2]
        exact hinj q1 (List.mem_filter.mp hq1).1 q2 (List.mem_filter.mp hq2).1 hkk
      have h2le : ∀ e ∈ (syncList (get_existing_from 2 rows) now ps).2.2, 2 ≤ e.1 :=
        fun e he => (hupds_low e he).1
      have hidx2 : updIdx (get_existing_from 2 rows) p - 2 = mq := by
        rw [hupIdx]
        omega
      have hTmq := applyUpdates_hit (syncList (get_existing_from 2 rows) now ps).2.2
        (rows ++ (syncList (get_existing_from 2 rows) now ps).2.1)
        (updIdx (get_existing_from 2 rows) p) (product_to_row now p) hmem hndidx h2le
        (by rw [hidx2, List.length_append]; omega)
      rw [hidx2] at hTmq
      refine ⟨2 + mq, product_to_row now p,
        lookup_gef_last (pkey p) 2 _ mq (product_to_row now p) hTmq
          (by simp [product_to_row]) (rowKeyFn_row p) ?_, ?_⟩
      · intro m2 r2 hm2 hget2 hlen2 heq
        rcases hchar m2 r2 hget2 hlen2 heq with ⟨hlt, hrget⟩ | ⟨hlt, -, hupIdx2, -⟩ |
          ⟨hge, hgetp, -⟩
        · exact hafter m2 r2 hm2 hrget hlen2 heq
        · rw [hupIdx] at hupIdx2
          omega
        · have hnn := (List.mem_filter.mp (List.getElem?_mem hgetp)).2
          simp [hlk] at hnn
      · rintro ⟨-, hne⟩
        exact hne rfl

/-- C5 counterexample: two products sharing one key with different prices,
synchronized twice from an empty table, give second-run stats
`{added 0, updated 1, unchanged 1}`, not `{0, 0, 2}`. -/
theorem C5_duplicate_key_cex :
    upload_products env_ok ⟨some (r"sheet1"), []⟩ [prodA, prodB] .update (r"T1") =
      .ok (⟨2, 0, 0⟩, [product_to_row (r"T1") prodA, product_to_row (r"T1") prodB],
        [Req.read, Req.append]) ∧
    upload_products env_ok
        ⟨some (r"sheet1"), [product_to_row (r"T1") prodA, product_to_row (r"T1") prodB]⟩
        [prodA, prodB] .update (r"T2") =
      .ok (⟨0, 1, 1⟩, [product_to_row (r"T1") prodA, product_to_row (r"T2") prodA],
        [Req.read, Req.update]) ∧
    Stats.mk 0 1 1 ≠ Stats.mk 0 0 2 := by
  refine ⟨rfl, rfl, by decide⟩

/-- C5 amended: for every product list with pairwise distinct keys and every
starting table, a failure-free update-mode run followed by a second run of
the same unchanged list yields `SyncStats (added 0) (updated 0) (unchanged N)`
on the second run (which also issues no write and leaves the table as it
was). -/
theorem C5_resync_unchanged_amended (rows : Table) (sid : String) (ps : List Product)
    (now1 now2 : String) (s1 : Stats) (t1 : Table) (log1 : List Req)
    (hpk : (ps.map pkey).Nodup)
    (hok1 : upload_products env_ok ⟨some sid, rows⟩ ps .update now1 = .ok (s1, t1, log1)) :
    upload_products env_ok ⟨some sid, t1⟩ ps .update now2 =
      .ok (⟨0, 0, ps.length⟩, t1, [Req.read]) := by
  rw [upload_envok_update_eq sid rows ps now1] at hok1
  simp only [Except.ok.injEq, Prod.mk.injEq] at hok1
  obtain ⟨-, ht1, -⟩ := hok1
  have hsync := syncList_all_unch
    (get_existing_from 2
      (applyUpdates (rows ++ (syncList (get_existing_from 2 rows) now1 ps).2.1)
        (syncList (get_existing_from 2 rows) now1 ps).2.2)) now2 ps
    (run1_unch rows ps now1 hpk)
  rw [← ht1, upload_envok_update_eq sid _ ps now2, hsync]
  simp [applyUpdates_nil, ht1]

/-- Witness for C5 amended: one product uploaded to an empty sheet and then
re-synchronized unchanged gives `{added 0, updated 0, unchanged 1}` and no
write on the second run. -/
theorem C5_resync_unchanged_amended_witness :
    upload_products env_ok ⟨some (r"sheet1"), [product_to_row (r"T1") prodA]⟩ [prodA]
        .update (r"T2") =
      .ok (⟨0, 0, 1⟩, [product_to_row (r"T1") prodA], [Req.read]) :=
  C5_resync_unchanged_amended [] (r"sheet1") [prodA] (r"T1") (r"T2") ⟨1, 0, 0⟩
    [product_to_row (r"T1") prodA] [Req.read, Req.append] (by decide) rfl

end AffSync
